import Mathlib

/-!
Verification of the gnosis memory core: a shallow embedding of the
MemoryStore (src/core/gnosis/src/lib/ai/memory.ts, class Memory) and the
ReconciliationEngine (class Gnosis) together with proofs about cursor
pagination, the update/upsert path, vector query ranking and the
reconciliation apply loop.

Modelling conventions:
- uuid identifiers and timestamps are modelled as naturals; the SQL
  composite order (createdAt, id) becomes the lexicographic order on
  pairs of naturals.
- JavaScript string truthiness (empty string is falsy) is modelled by
  strTruthy on Option String; an absent or empty cursor/filter value
  behaves as unset, exactly as in the TypeScript code.
- the embedding provider (this.ai.run / Memory.embed) is a parameter
  embedFn : String -> Emb applied pointwise, matching the contract that
  the provider returns one vector per input text, in order.
- the SQL engine cosineDistance operator is a parameter
  dist : Emb -> Emb -> Rat; the repository code never computes it, it
  only orders by it and maps similarity to a score as 1 - distance.
- a SELECT ... WHERE c ORDER BY o LIMIT n is modelled as
  take n (insertionSort o (filter c table)); thrown errors become
  Except.error carrying the error kind and message of the source.
-/

abbrev MemId := Nat
abbrev Emb := List Rat

/-- Errors thrown by the store and engine, tagged with the taxonomy of the
spec (ValidationError / NotFoundError) and carrying the thrown message. -/
inductive StoreErr where
  | validation (msg : String)
  | notFound (msg : String)
  deriving Repr, DecidableEq

/-- A persisted row of the memories table (schema in packages/db):
id uuid, embedding vector(768), user_id, org_id, memory_text, agent_id
(default empty string), categories, created_at, updated_at. -/
structure MemoryRow where
  id : MemId
  embedding : Emb
  userId : String
  orgId : String
  memoryText : String
  agentId : String
  categories : Option (List String)
  createdAt : Nat
  updatedAt : Nat
  deriving Repr, DecidableEq

/-- The composite pagination sort key (createdAt, id). -/
abbrev Key := Nat × Nat

def rowKey (r : MemoryRow) : Key := (r.createdAt, r.id)

/-- Strict lexicographic order on (createdAt, id), the SQL composite
comparison createdAt < OR (createdAt = AND id <). -/
def keyLt (a b : Key) : Prop := a.1 < b.1 ∨ (a.1 = b.1 ∧ a.2 < b.2)

instance (a b : Key) : Decidable (keyLt a b) := by
  unfold keyLt; infer_instance

/-- Row order used for ORDER BY createdAt DESC, id DESC. -/
def descLe (a b : MemoryRow) : Prop := keyLt (rowKey b) (rowKey a) ∨ rowKey a = rowKey b

/-- Row order used for ORDER BY createdAt ASC, id ASC. -/
def ascLe (a b : MemoryRow) : Prop := keyLt (rowKey a) (rowKey b) ∨ rowKey a = rowKey b

instance : DecidableRel descLe := by
  unfold descLe; infer_instance

instance : DecidableRel ascLe := by
  unfold ascLe; infer_instance

/-- Strictly-greater key order: a is strictly newer than b. -/
def rGT (a b : MemoryRow) : Prop := keyLt (rowKey b) (rowKey a)

/-- Strictly-smaller key order: a is strictly older than b. -/
def rLT (a b : MemoryRow) : Prop := keyLt (rowKey a) (rowKey b)

theorem keyLt_irrefl (a : Key) : ¬ keyLt a a := by
  unfold keyLt; omega

theorem keyLt_trans {a b c : Key} (h1 : keyLt a b) (h2 : keyLt b c) : keyLt a c := by
  unfold keyLt at *; omega

theorem keyLt_asymm {a b : Key} (h1 : keyLt a b) (h2 : keyLt b a) : False := by
  unfold keyLt at *; omega

theorem keyLt_total (a b : Key) : keyLt a b ∨ a = b ∨ keyLt b a := by
  unfold keyLt
  rcases a with ⟨a1, a2⟩
  rcases b with ⟨b1, b2⟩
  simp only [Prod.mk.injEq]
  omega

instance : IsTrans MemoryRow descLe := by
  constructor
  intro a b c hab hbc
  rcases hab with h | h
  · rcases hbc with h2 | h2
    · exact Or.inl (keyLt_trans h2 h)
    · exact Or.inl (h2 ▸ h)
  · rcases hbc with h2 | h2
    · exact Or.inl (h ▸ h2)
    · exact Or.inr (h.trans h2)

instance : IsTotal MemoryRow descLe := by
  constructor
  intro a b
  rcases keyLt_total (rowKey a) (rowKey b) with h | h | h
  · exact Or.inr (Or.inl h)
  · exact Or.inl (Or.inr h)
  · exact Or.inl (Or.inl h)

instance : IsTrans MemoryRow ascLe := by
  constructor
  intro a b c hab hbc
  rcases hab with h | h
  · rcases hbc with h2 | h2
    · exact Or.inl (keyLt_trans h h2)
    · exact Or.inl (h2 ▸ h)
  · rcases hbc with h2 | h2
    · exact Or.inl (h ▸ h2)
    · exact Or.inr (h.trans h2)

instance : IsTotal MemoryRow ascLe := by
  constructor
  intro a b
  rcases keyLt_total (rowKey a) (rowKey b) with h | h | h
  · exact Or.inl (Or.inl h)
  · exact Or.inl (Or.inr h)
  · exact Or.inr (Or.inl h)

instance : IsAntisymm MemoryRow rGT := by
  constructor
  intro a b h1 h2
  exact (keyLt_asymm h1 h2).elim

instance : IsAntisymm MemoryRow rLT := by
  constructor
  intro a b h1 h2
  exact (keyLt_asymm h1 h2).elim

/-- JavaScript truthiness of an optional string: undefined and the empty
string are falsy, every other string is truthy. -/
def strTruthy : Option String → Bool
  | some s => !(s == "")
  | none => false

/-- Conjunctive equality filters on userId / orgId / agentId; a filter
participates only when truthy, mirroring if (filters.userId) cond.push. -/
structure Filters where
  userId : Option String
  orgId : Option String
  agentId : Option String
  deriving Repr, DecidableEq

def matchesFilters (f : Filters) (r : MemoryRow) : Bool :=
  (if strTruthy f.userId then r.userId == f.userId.getD "" else true) &&
  (if strTruthy f.orgId then r.orgId == f.orgId.getD "" else true) &&
  (if strTruthy f.agentId then r.agentId == f.agentId.getD "" else true)

/-- Well-formed table: primary-key uniqueness of id. -/
def WF (rows : List MemoryRow) : Prop := (rows.map MemoryRow.id).Nodup

instance (rows : List MemoryRow) : Decidable (WF rows) := by
  unfold WF; infer_instance

/-- Resolve a cursor id against the whole memories table, the
SELECT id, createdAt ... WHERE id = cursor LIMIT 1 of getByFilters. -/
def findRow (rows : List MemoryRow) (i : MemId) : Option MemoryRow :=
  rows.find? (fun r => r.id == i)

/-- Clamp of the page size: if (limit < 1) limit = 1; if (limit > 100)
limit = 100. -/
def clampLimit (limit : Nat) : Nat :=
  if limit < 1 then 1 else if limit > 100 then 100 else limit

/-- One page of Memory.getByFilters: the selected rows (embedding column
not selected; we keep whole rows for simplicity of the model) and the
has_more flag. -/
structure Page where
  data : List MemoryRow
  has_more : Bool
  deriving Repr, DecidableEq

/-- Memory.getByFilters: bidirectional cursor pagination.
Cursors are modelled as Option MemId; in the source they are optional
strings and the empty string behaves as unset (falsy), so none models
both. includeTotal is accepted and ignored, as in the source, where the
total count calculation was removed. -/
def Memory.getByFilters (rows : List MemoryRow) (f : Filters) (limit : Nat)
    (_includeTotal : Bool) (starting_after ending_before : Option MemId) :
    Except StoreErr Page :=
  if starting_after.isSome && ending_before.isSome then
    .error (.validation "Cannot use starting_after and ending_before simultaneously.")
  else
    let lim := clampLimit limit
    let backward := ending_before.isSome
    let cursorId := if starting_after.isSome then starting_after else ending_before
    match cursorId with
    | some cid =>
      match findRow rows cid with
      | none => .error (.notFound ("Cursor record not found: " ++ toString cid))
      | some ref =>
        if backward then
          let fetched := ((rows.filter (fun r =>
            matchesFilters f r && decide (keyLt (rowKey ref) (rowKey r)))).insertionSort
              ascLe).take (lim + 1)
          .ok ⟨(fetched.take lim).reverse, true⟩
        else
          let fetched := ((rows.filter (fun r =>
            matchesFilters f r && decide (keyLt (rowKey r) (rowKey ref)))).insertionSort
              descLe).take (lim + 1)
          .ok ⟨fetched.take lim, decide (lim < fetched.length)⟩
    | none =>
      let fetched := ((rows.filter (fun r =>
        matchesFilters f r)).insertionSort descLe).take (lim + 1)
      .ok ⟨fetched.take lim, decide (lim < fetched.length)⟩

/-- An item of the Memory.add input list: optional explicit id (upsert
path), optional precomputed embedding, and the memory columns. -/
structure AddItem where
  id : Option MemId
  embedding : Option Emb
  memoryText : String
  userId : String
  orgId : String
  agentId : Option String
  deriving Repr, DecidableEq

/-- A fully-built insert record (schema.MemoryInsert) ready for the
batch upsert. -/
structure MemoryInsert where
  id : Option MemId
  embedding : Emb
  userId : String
  orgId : String
  memoryText : String
  agentId : String
  deriving Repr, DecidableEq

/-- The fact-text to embedding map built by Memory.add for the items
missing an embedding. The source builds a JS Map by iterating the batch
result; since the provider returns exactly the vector of each text, the
assoc list of (text, embedFn text) pairs has the same lookup behaviour
(duplicate texts collapse to the same value). -/
def embeddingsMapOf (embedFn : String → Emb) (items : List AddItem) :
    List (String × Emb) :=
  (items.filter (fun it => it.embedding.isNone)).map
    (fun it => (it.memoryText, embedFn it.memoryText))

/-- Build one insert record from an add item: throws when orgId is
falsy; takes the supplied embedding or the looked-up batch embedding;
defaults agentId to the empty string. -/
def mkRecord (embedsMap : List (String × Emb)) (it : AddItem) :
    Except StoreErr MemoryInsert :=
  if it.orgId == "" then
    .error (.validation "Memory has no orgId")
  else
    .ok { id := it.id,
          embedding :=
            match it.embedding with
            | some e => e
            | none => (embedsMap.lookup it.memoryText).getD [],
          userId := it.userId,
          orgId := it.orgId,
          memoryText := it.memoryText,
          agentId := it.agentId.getD "" }

/-- A new row inserted by the upsert: createdAt and updatedAt take the
DB defaultNow timestamp, categories stays at its default. -/
def freshRow (i : MemId) (rec : MemoryInsert) (now : Nat) : MemoryRow :=
  { id := i, embedding := rec.embedding, userId := rec.userId,
    orgId := rec.orgId, memoryText := rec.memoryText,
    agentId := rec.agentId, categories := none,
    createdAt := now, updatedAt := now }

/-- The table together with the uuid generator state. -/
structure StoreState where
  rows : List MemoryRow
  nextId : MemId
  deriving Repr, DecidableEq

/-- Apply one record of the batch INSERT ... ON CONFLICT (id) DO UPDATE
SET embedding, user_id, org_id, memory_text, agent_id = EXCLUDED...
Note the DO UPDATE set clause touches neither created_at nor updated_at
nor categories. Returns the resulting id (RETURNING id). -/
def applyRecord (now : Nat) (st : StoreState) (rec : MemoryInsert) :
    StoreState × MemId :=
  match rec.id with
  | some i =>
    if st.rows.any (fun r => r.id == i) then
      (⟨st.rows.map (fun r =>
          if r.id == i then
            { r with embedding := rec.embedding, userId := rec.userId,
                     orgId := rec.orgId, memoryText := rec.memoryText,
                     agentId := rec.agentId }
          else r),
        st.nextId⟩, i)
    else
      (⟨st.rows ++ [freshRow i rec now], st.nextId⟩, i)
  | none =>
    (⟨st.rows ++ [freshRow st.nextId rec now], st.nextId + 1⟩, st.nextId)

/-- Sequential construction of the insert records (the items.map of the
source, whose orgId throw aborts the whole call before any write). -/
def buildRecords (embedsMap : List (String × Emb)) :
    List AddItem → Except StoreErr (List MemoryInsert)
  | [] => .ok []
  | it :: rest =>
    match mkRecord embedsMap it with
    | .error e => .error e
    | .ok rec =>
      match buildRecords embedsMap rest with
      | .error e => .error e
      | .ok recs => .ok (rec :: recs)

/-- Memory.add: embed the items missing an embedding in one batch, build
all records (throwing on a falsy orgId before anything is written, so a
failing batch leaves the table unchanged), then upsert them in order and
return the resulting ids in input order. -/
def Memory.add (embedFn : String → Emb) (now : Nat) (st : StoreState)
    (items : List AddItem) : Except StoreErr (StoreState × List MemId) :=
  let embedsMap := embeddingsMapOf embedFn items
  match buildRecords embedsMap items with
  | .error e => .error e
  | .ok recs =>
    .ok (recs.foldl
      (fun acc rec =>
        let res := applyRecord now acc.1 rec
        (res.1, acc.2 ++ [res.2]))
      (st, []))

/-- Memory.delete: DELETE WHERE id IN ids; deleting absent ids is a
no-op. -/
def Memory.delete (st : StoreState) (ids : List MemId) : StoreState :=
  ⟨st.rows.filter (fun r => !(ids.contains r.id)), st.nextId⟩

/-- Memory.getAllById: SELECT * WHERE id IN ids, in table order; absent
ids are simply missing from the result. -/
def Memory.getAllById (rows : List MemoryRow) (ids : List MemId) :
    List MemoryRow :=
  rows.filter (fun r => ids.contains r.id)

/-- One ranked match returned by Memory.query. -/
structure MemoryMatch where
  id : MemId
  score : Rat
  userId : String
  orgId : String
  agentId : String
  memoryText : String
  categories : Option (List String)
  deriving Repr, DecidableEq

/-- Result of Memory.query; the source field is named matches, which is
a reserved word in Lean, hence matchList. -/
structure QueryResult where
  matchList : List MemoryMatch
  deriving Repr, DecidableEq

/-- Text cleanup before embedding: text.trim().replace newline with
space. -/
def cleanText (s : String) : String := (s.trim).replace "\n" " "

/-- The similarity ranking order: ORDER BY cosineDistance ascending. -/
def distLe (dist : Emb → Emb → Rat) (v : Emb) (a b : MemoryRow) : Prop :=
  dist a.embedding v ≤ dist b.embedding v

instance (dist : Emb → Emb → Rat) (v : Emb) : DecidableRel (distLe dist v) := by
  unfold distLe; infer_instance

instance (dist : Emb → Emb → Rat) (v : Emb) : IsTrans MemoryRow (distLe dist v) := by
  constructor
  intro a b c h1 h2
  exact le_trans h1 h2

instance (dist : Emb → Emb → Rat) (v : Emb) : IsTotal MemoryRow (distLe dist v) := by
  constructor
  intro a b
  exact le_total (dist a.embedding v) (dist b.embedding v)

/-- The embedding vector Memory.query ranks by: the embedded cleaned
text when text is truthy, otherwise the supplied embedding. -/
def queryVec (embedFn : String → Emb) (text : Option String)
    (embedding : Option Emb) : Emb :=
  if strTruthy text then embedFn (cleanText (text.getD "")) else embedding.getD []

/-- Memory.query: throws when neither text nor embedding is supplied
(JS truthiness: empty text counts as absent, any supplied array counts
as present); otherwise embeds the cleaned text when text is truthy, else
uses the supplied embedding; filters, orders by cosine distance
ascending, limits, and maps each row to a match with
score = 1 - distance. -/
def Memory.query (embedFn : String → Emb) (dist : Emb → Emb → Rat)
    (rows : List MemoryRow) (text : Option String) (embedding : Option Emb)
    (limit : Nat) (filters : Filters) : Except StoreErr QueryResult :=
  if !(strTruthy text) && embedding.isNone then
    .error (.validation "text or embedding must be provided")
  else
    let v := queryVec embedFn text embedding
    let ranked := (rows.filter (matchesFilters filters)).insertionSort
      (distLe dist v)
    .ok ⟨(ranked.take limit).map (fun r =>
      { id := r.id, score := 1 - dist r.embedding v, userId := r.userId,
        orgId := r.orgId, agentId := r.agentId,
        memoryText := r.memoryText, categories := r.categories })⟩

/-- The view of a memory returned by Gnosis.get. -/
structure GetView where
  id : MemId
  text : String
  userId : String
  orgId : String
  agentId : String
  categories : Option (List String)
  deriving Repr, DecidableEq

/-- Gnosis.get: getAllById on the single id, null when absent. -/
def Gnosis.get (rows : List MemoryRow) (memoryId : MemId) : Option GetView :=
  match Memory.getAllById rows [memoryId] with
  | [] => none
  | m :: _ =>
    some { id := m.id, text := m.memoryText, userId := m.userId,
           orgId := m.orgId, agentId := m.agentId,
           categories := m.categories }

/-- Gnosis.update: fetch the current memory (NotFoundError when absent),
then upsert the same id with the new text and the fetched userId and
orgId. The add item carries no embedding (the store re-embeds the text)
and no agentId. -/
def Gnosis.update (embedFn : String → Emb) (now : Nat) (st : StoreState)
    (memoryId : MemId) (text : String) :
    Except StoreErr (StoreState × String) :=
  match Gnosis.get st.rows memoryId with
  | none => .error (.notFound ("Memory " ++ toString memoryId ++ " not found"))
  | some memory =>
    match Memory.add embedFn now st
        [{ id := some memoryId, embedding := none, memoryText := text,
           userId := memory.userId, orgId := memory.orgId,
           agentId := none }] with
    | .error e => .error e
    | .ok (st2, _) =>
      .ok (st2, "Memory " ++ toString memoryId ++ " updated successfully")

/-- Gnosis.delete: unconditional store delete of the single id. -/
def Gnosis.delete (st : StoreState) (memoryId : MemId) : StoreState × String :=
  (Memory.delete st [memoryId],
   "Memory " ++ toString memoryId ++ " deleted successfully")

/-- Gnosis.search: ranks by the embedded query text under the
userId / orgId filters; the limit argument of the source is accepted but
never forwarded to the store query, which therefore uses its default. -/
def Gnosis.search (embedFn : String → Emb) (dist : Emb → Emb → Rat)
    (rows : List MemoryRow) (query : String) (userId orgId : String) :
    Except StoreErr (List MemoryMatch) :=
  match Memory.query embedFn dist rows (some query) none 10
      { userId := some userId, orgId := some orgId, agentId := none } with
  | .error e => .error e
  | .ok res => .ok res.matchList

/-- The reconciliation event emitted by the TextGenerator. -/
inductive MemEvent where
  | ADD
  | UPDATE
  | DELETE
  | NONE
  deriving Repr, DecidableEq

/-- One reconciliation instruction of the structured LLM output:
optional index string id, text, event, optional old text. -/
structure ReconItem where
  id : Option String
  text : String
  event : MemEvent
  old_memory : Option String
  deriving Repr, DecidableEq

/-- One operation of the list returned by Gnosis.add. -/
inductive Op where
  | opAdd (text : String) (id : Option MemId)
  | opUpdate (id : MemId) (oldText : Option String) (newText : String)
  | opDelete (id : MemId)
  deriving Repr, DecidableEq

/-- The apply phase of Gnosis.add (step 4 of the source): walk the
emitted instructions in order, translating index ids back to real uuids
through the ephemeral mapping. An UPDATE or DELETE whose id is falsy or
absent from the mapping is skipped: no exception, no appended operation,
no store mutation. ADD looks up the embedding of the exact fact text
(absent lookups leave the embedding to the store). -/
def processUpdates (embedFn : String → Emb) (now : Nat)
    (factEmbeds : List (String × Emb)) (userId orgId : String)
    (mapping : List (String × MemId)) :
    StoreState → List ReconItem → Except StoreErr (StoreState × List Op)
  | st, [] => .ok (st, [])
  | st, item :: rest =>
    match item.event with
    | .ADD =>
      match Memory.add embedFn now st
          [{ id := none, embedding := factEmbeds.lookup item.text,
             memoryText := item.text, userId := userId, orgId := orgId,
             agentId := none }] with
      | .error e => .error e
      | .ok (st2, ids) =>
        match processUpdates embedFn now factEmbeds userId orgId mapping st2 rest with
        | .error e => .error e
        | .ok (st3, ops) => .ok (st3, .opAdd item.text ids.head? :: ops)
    | .UPDATE =>
      if !(strTruthy item.id) then
        processUpdates embedFn now factEmbeds userId orgId mapping st rest
      else
        match mapping.lookup (item.id.getD "") with
        | none => processUpdates embedFn now factEmbeds userId orgId mapping st rest
        | some realUuid =>
          match Memory.add embedFn now st
              [{ id := some realUuid, embedding := none,
                 memoryText := item.text, userId := userId, orgId := orgId,
                 agentId := none }] with
          | .error e => .error e
          | .ok (st2, _) =>
            match processUpdates embedFn now factEmbeds userId orgId mapping st2 rest with
            | .error e => .error e
            | .ok (st3, ops) =>
              .ok (st3, .opUpdate realUuid item.old_memory item.text :: ops)
    | .DELETE =>
      if !(strTruthy item.id) then
        processUpdates embedFn now factEmbeds userId orgId mapping st rest
      else
        match mapping.lookup (item.id.getD "") with
        | none => processUpdates embedFn now factEmbeds userId orgId mapping st rest
        | some deleteUuid =>
          let st2 := Memory.delete st [deleteUuid]
          match processUpdates embedFn now factEmbeds userId orgId mapping st2 rest with
          | .error e => .error e
          | .ok (st3, ops) => .ok (st3, .opDelete deleteUuid :: ops)
    | .NONE =>
      processUpdates embedFn now factEmbeds userId orgId mapping st rest

/-- Calls Gnosis.add makes against its collaborators after fact
extraction, recorded for the short-circuit property. -/
inductive EngineCall where
  | embedCall (texts : List String)
  | queryCall (v : Emb)
  | reconcileCall
  deriving Repr, DecidableEq

/-- The candidate retrieval loop of Gnosis.add: one store query per
fact embedding (top 10, filtered by userId and orgId), results unioned
and deduplicated by memory id, first occurrence winning. -/
def collectSimilar (dist : Emb → Emb → Rat) (rows : List MemoryRow)
    (userId orgId : String) (embs : List Emb) : List MemoryMatch :=
  (embs.foldl
    (fun acc e =>
      match Memory.query (fun _ => []) dist rows none (some e) 10
          { userId := some userId, orgId := some orgId, agentId := none } with
      | .error _ => acc
      | .ok res =>
        res.matchList.foldl
          (fun acc2 m =>
            if (acc2.map MemoryMatch.id).contains m.id then acc2
            else acc2 ++ [m])
          acc)
    [])

/-- Gnosis.add after the fact-extraction call: facts is the structured
extraction output, reconciler the structured reconciliation model (its
arguments are the index view of the old memories and the fact list).
Returns the engine result together with the list of collaborator calls
made, in order. With zero facts the method returns the empty operation
list at once: no embedding call, no store query, no reconciliation call,
and the store is untouched. -/
def Gnosis.add (embedFn : String → Emb) (dist : Emb → Emb → Rat)
    (reconciler : List (String × String) → List String → List ReconItem)
    (now : Nat) (userId orgId : String) (facts : List String)
    (st : StoreState) :
    Except StoreErr (StoreState × List Op) × List EngineCall :=
  if facts.isEmpty then
    (.ok (st, []), [])
  else
    let newEmbeddings := facts.map embedFn
    let factEmbeds := facts.map (fun fct => (fct, embedFn fct))
    let similar := collectSimilar dist st.rows userId orgId newEmbeddings
    let mapping := similar.enum.map
      (fun p => (toString p.1, p.2.id))
    let oldView := similar.enum.map
      (fun p => (toString p.1, p.2.memoryText))
    let items := reconciler oldView facts
    (processUpdates embedFn now factEmbeds userId orgId mapping st items,
     [.embedCall facts] ++ newEmbeddings.map (fun e => .queryCall e)
       ++ [.reconcileCall])

/-! ## Helper lemmas: id lookups under primary-key uniqueness -/

theorem WF_cons {a : MemoryRow} {l : List MemoryRow} (hwf : WF (a :: l)) :
    a.id ∉ l.map MemoryRow.id ∧ WF l := by
  unfold WF at hwf ⊢
  simpa using List.nodup_cons.mp hwf

/-- In a well-formed table the filter by the id of a member row keeps
exactly that row. -/
theorem filter_by_id_of_mem {rows : List MemoryRow} {r : MemoryRow}
    (hwf : WF rows) (hr : r ∈ rows) :
    rows.filter (fun x => x.id == r.id) = [r] := by
  induction rows with
  | nil => cases hr
  | cons a l ih =>
    rcases List.mem_cons.mp hr with h | h
    · subst h
      rw [List.filter_cons]
      simp only [beq_self_eq_true, if_true]
      have hnil : l.filter (fun x => x.id == r.id) = [] := by
        rw [List.filter_eq_nil_iff]
        intro x hx hbeq
        exact (WF_cons hwf).1
          (List.mem_map.mpr ⟨x, hx, beq_iff_eq.mp hbeq⟩)
      rw [hnil]
    · have hne : (a.id == r.id) = false := by
        rw [beq_eq_false_iff_ne]
        intro heq
        exact (WF_cons hwf).1
          (heq ▸ List.mem_map.mpr ⟨r, h, rfl⟩)
      rw [List.filter_cons]
      simp only [hne, Bool.false_eq_true, if_false]
      exact ih (WF_cons hwf).2 h

/-- In a well-formed table find? by the id of a member row returns that
row. -/
theorem findRow_of_mem {rows : List MemoryRow} {r : MemoryRow}
    (hwf : WF rows) (hr : r ∈ rows) :
    findRow rows r.id = some r := by
  induction rows with
  | nil => cases hr
  | cons a l ih =>
    rcases List.mem_cons.mp hr with h | h
    · subst h
      unfold findRow
      rw [List.find?_cons]
      simp
    · have hne : (a.id == r.id) = false := by
        rw [beq_eq_false_iff_ne]
        intro heq
        exact (WF_cons hwf).1
          (heq ▸ List.mem_map.mpr ⟨r, h, rfl⟩)
      unfold findRow at ih ⊢
      rw [List.find?_cons]
      simp only [hne]
      exact ih (WF_cons hwf).2 h

/-- Two member rows of a well-formed table with the same id coincide. -/
theorem eq_of_mem_of_id_eq {rows : List MemoryRow} {r x : MemoryRow}
    (hwf : WF rows) (hr : r ∈ rows) (hx : x ∈ rows) (hid : x.id = r.id) :
    x = r := by
  have hmem : x ∈ rows.filter (fun y => y.id == r.id) :=
    List.mem_filter.mpr ⟨hx, beq_iff_eq.mpr hid⟩
  rw [filter_by_id_of_mem hwf hr] at hmem
  simpa using hmem

/-! ## The effect of Gnosis.update on the table -/

/-- The row transformation performed by the conflict branch of the
upsert issued by Gnosis.update: embedding, userId, orgId, memoryText and
agentId are overwritten (agentId with the empty string, since the update
passes no agentId), while createdAt, updatedAt and categories are not in
the DO UPDATE set clause and stay as they are. -/
def updFun (embedFn : String → Emb) (i : MemId) (text u o : String)
    (x : MemoryRow) : MemoryRow :=
  if x.id == i then
    { x with embedding := embedFn text, userId := u, orgId := o,
             memoryText := text, agentId := "" }
  else x

theorem getAllById_single {rows : List MemoryRow} {r : MemoryRow}
    (hwf : WF rows) (hr : r ∈ rows) :
    Memory.getAllById rows [r.id] = [r] := by
  unfold Memory.getAllById
  have hpt : ∀ x ∈ rows, ([r.id].contains x.id) = (x.id == r.id) := by
    intro x _
    simp only [List.contains_cons, List.contains_nil, Bool.or_false,
      Nat.beq_eq, decide_eq_decide]
  rw [List.filter_congr hpt]
  exact filter_by_id_of_mem hwf hr

theorem gnosis_get_of_mem {rows : List MemoryRow} {r : MemoryRow}
    (hwf : WF rows) (hr : r ∈ rows) :
    Gnosis.get rows r.id =
      some { id := r.id, text := r.memoryText, userId := r.userId,
             orgId := r.orgId, agentId := r.agentId,
             categories := r.categories } := by
  unfold Gnosis.get
  rw [getAllById_single hwf hr]

/-- Full characterisation of Gnosis.update on a well-formed table at the
id of a member row with a truthy orgId: the call succeeds and rewrites
exactly the rows carrying that id through updFun. -/
theorem gnosis_update_spec (embedFn : String → Emb) (now : Nat)
    (st : StoreState) {r : MemoryRow} (hwf : WF st.rows) (hr : r ∈ st.rows)
    (horg : ¬ r.orgId = "") (text : String) :
    Gnosis.update embedFn now st r.id text =
      .ok (⟨st.rows.map (updFun embedFn r.id text r.userId r.orgId),
            st.nextId⟩,
           "Memory " ++ toString r.id ++ " updated successfully") := by
  unfold Gnosis.update
  rw [gnosis_get_of_mem hwf hr]
  have horgb : (r.orgId == "") = false := by
    rw [beq_eq_false_iff_ne]; exact horg
  have hany : st.rows.any (fun x => x.id == r.id) = true :=
    List.any_eq_true.mpr ⟨r, hr, beq_self_eq_true r.id⟩
  simp only [Memory.add, embeddingsMapOf, buildRecords, mkRecord,
    List.filter_cons, List.filter_nil, Option.isNone_none, if_true,
    List.map_cons, List.map_nil, horgb, Bool.false_eq_true, if_false,
    List.lookup_cons, beq_self_eq_true, Option.getD_some,
    List.foldl_cons, List.foldl_nil, applyRecord, hany]
  rfl

/-! ## Concrete fixtures for witnesses and counterexamples -/

/-- A concrete deterministic embedder used in closed statements. -/
def efn0 : String → Emb := fun s => [(s.length : Rat)]

/-- A concrete distance function used in closed statements. -/
def dist0 : Emb → Emb → Rat := fun a b =>
  (a.headD 0 - b.headD 0) * (a.headD 0 - b.headD 0)

def row0 : MemoryRow :=
  { id := 1, embedding := [5], userId := "user1", orgId := "org1",
    memoryText := "likes apples", agentId := "agent-7", categories := none,
    createdAt := 3, updatedAt := 3 }

/-- The row a result of Gnosis.update holds at a given id. -/
def rowAfter (res : Except StoreErr (StoreState × String)) (i : MemId) :
    Option MemoryRow :=
  match res with
  | .ok (st, _) => findRow st.rows i
  | .error _ => none

/-! ## C2 and C4: the update path -/

theorem updFun_id (embedFn : String → Emb) (i : MemId) (text u o : String)
    (x : MemoryRow) : (updFun embedFn i text u o x).id = x.id := by
  unfold updFun
  split <;> rfl

theorem updFun_self (embedFn : String → Emb) (text u o : String)
    (r : MemoryRow) :
    updFun embedFn r.id text u o r =
      { r with embedding := embedFn text, userId := u, orgId := o,
               memoryText := text, agentId := "" } := by
  unfold updFun
  simp

theorem WF_map_updFun (embedFn : String → Emb) (i : MemId)
    (text u o : String) {rows : List MemoryRow} (hwf : WF rows) :
    WF (rows.map (updFun embedFn i text u o)) := by
  unfold WF
  rw [List.map_map]
  have : (MemoryRow.id ∘ updFun embedFn i text u o) = MemoryRow.id := by
    funext x
    exact updFun_id embedFn i text u o x
  rw [this]
  exact hwf

/-- C2 (amended): update(id, newText) followed by get(id) returns
text = newText under the same id, and the row keeps its createdAt; but,
against the original claim, updatedAt is also unchanged, because the
conflict branch of the upsert never touches updated_at. -/
theorem update_get_roundtrip (embedFn : String → Emb) (now : Nat)
    (st : StoreState) {r : MemoryRow} (hwf : WF st.rows) (hr : r ∈ st.rows)
    (horg : ¬ r.orgId = "") (newText : String) :
    ∃ st2 msg, Gnosis.update embedFn now st r.id newText = .ok (st2, msg) ∧
      (∃ v, Gnosis.get st2.rows r.id = some v ∧
        v.text = newText ∧ v.id = r.id) ∧
      (∃ r2, r2 ∈ st2.rows ∧ r2.id = r.id ∧ r2.memoryText = newText ∧
        r2.createdAt = r.createdAt ∧ r2.updatedAt = r.updatedAt) := by
  refine ⟨_, _, gnosis_update_spec embedFn now st hwf hr horg newText, ?_, ?_⟩
  · have hwf2 := WF_map_updFun embedFn r.id newText r.userId r.orgId hwf
    have hmem : updFun embedFn r.id newText r.userId r.orgId r ∈
        st.rows.map (updFun embedFn r.id newText r.userId r.orgId) :=
      List.mem_map_of_mem _ hr
    rw [updFun_self] at hmem
    have hget := gnosis_get_of_mem hwf2 hmem
    exact ⟨_, hget, rfl, rfl⟩
  · refine ⟨updFun embedFn r.id newText r.userId r.orgId r,
      List.mem_map_of_mem _ hr, ?_⟩
    rw [updFun_self]
    exact ⟨rfl, rfl, rfl, rfl⟩

/-- C2 witness: the amended round trip evaluated on a one-row table. -/
theorem update_get_roundtrip_witness :
    ∃ st2 msg,
      Gnosis.update efn0 9 ⟨[row0], 100⟩ row0.id "bananas" = .ok (st2, msg) ∧
      (∃ v, Gnosis.get st2.rows row0.id = some v ∧
        v.text = "bananas" ∧ v.id = row0.id) ∧
      (∃ r2, r2 ∈ st2.rows ∧ r2.id = row0.id ∧ r2.memoryText = "bananas" ∧
        r2.createdAt = row0.createdAt ∧ r2.updatedAt = row0.updatedAt) :=
  update_get_roundtrip efn0 9 ⟨[row0], 100⟩ (by decide) (by decide)
    (by decide) "bananas"

/-- C2 counterexample: updating row0 (updatedAt = 3) at a later time 9
leaves updatedAt = 3, so updatedAt does not advance. -/
theorem update_updatedAt_not_advanced :
    ¬ ∃ t, (rowAfter (Gnosis.update efn0 9 ⟨[row0], 100⟩ 1 "bananas") 1).map
        MemoryRow.updatedAt = some t ∧ 3 < t := by
  rintro ⟨t, ht, hgt⟩
  have hv : (rowAfter (Gnosis.update efn0 9 ⟨[row0], 100⟩ 1 "bananas") 1).map
      MemoryRow.updatedAt = some 3 := by decide
  rw [hv] at ht
  cases ht
  omega

/-- C4 (amended): update preserves userId and orgId (and createdAt and
updatedAt) and rewrites text and embedding; but agentId is not
preserved: it is reset to the empty string, because Gnosis.update does
not pass the fetched agentId into the upsert. -/
theorem update_preserves_user_org (embedFn : String → Emb) (now : Nat)
    (st : StoreState) {r : MemoryRow} (hwf : WF st.rows) (hr : r ∈ st.rows)
    (horg : ¬ r.orgId = "") (newText : String) :
    ∃ st2 msg, Gnosis.update embedFn now st r.id newText = .ok (st2, msg) ∧
      ∀ r2, r2 ∈ st2.rows → r2.id = r.id →
        r2.userId = r.userId ∧ r2.orgId = r.orgId ∧ r2.agentId = "" ∧
        r2.memoryText = newText ∧ r2.embedding = embedFn newText ∧
        r2.createdAt = r.createdAt ∧ r2.updatedAt = r.updatedAt := by
  refine ⟨_, _, gnosis_update_spec embedFn now st hwf hr horg newText, ?_⟩
  intro r2 hmem hid
  rcases List.mem_map.mp hmem with ⟨x, hx, hx2⟩
  by_cases hcase : x.id = r.id
  · have hxr : x = r := eq_of_mem_of_id_eq hwf hr hx hcase
    subst hxr
    rw [updFun_self] at hx2
    subst hx2
    exact ⟨rfl, rfl, rfl, rfl, rfl, rfl, rfl⟩
  · exfalso
    apply hcase
    rw [← hx2] at hid
    rw [updFun_id] at hid
    exact hid

/-- C4 witness: the amended frame property evaluated on a one-row
table. -/
theorem update_preserves_user_org_witness :
    ∃ st2 msg,
      Gnosis.update efn0 9 ⟨[row0], 100⟩ row0.id "bananas" = .ok (st2, msg) ∧
      ∀ r2, r2 ∈ st2.rows → r2.id = row0.id →
        r2.userId = row0.userId ∧ r2.orgId = row0.orgId ∧ r2.agentId = "" ∧
        r2.memoryText = "bananas" ∧ r2.embedding = efn0 "bananas" ∧
        r2.createdAt = row0.createdAt ∧ r2.updatedAt = row0.updatedAt :=
  update_preserves_user_org efn0 9 ⟨[row0], 100⟩ (by decide) (by decide)
    (by decide) "bananas"

/-- C4 counterexample: updating row0, whose agentId is agent-7, resets
agentId to the empty string instead of preserving it. -/
theorem update_drops_agentId :
    (rowAfter (Gnosis.update efn0 9 ⟨[row0], 100⟩ 1 "bananas") 1).map
        MemoryRow.agentId = some "" ∧
    ¬ ((rowAfter (Gnosis.update efn0 9 ⟨[row0], 100⟩ 1 "bananas") 1).map
        MemoryRow.agentId = some "agent-7") := by
  constructor
  · decide
  · decide

/-! ## C8: cursor mutual exclusion -/

/-- C8: getByFilters with both cursors set (truthy) fails with the
ValidationError whose message says they cannot be used simultaneously;
the result is the same for every table, filter set and limit, so no
query against the store is performed. -/
theorem getByFilters_both_cursors (rows : List MemoryRow) (f : Filters)
    (limit : Nat) (it : Bool) (sa eb : MemId) :
    Memory.getByFilters rows f limit it (some sa) (some eb) =
      .error (.validation
        "Cannot use starting_after and ending_before simultaneously.") := by
  rfl

/-! ## C7: empty-extraction short circuit -/

/-- C7: when fact extraction yields zero facts, Gnosis.add returns the
empty operation list with the store untouched and makes no embedding
call, no candidate query and no reconciliation call. -/
theorem gnosis_add_empty_facts (embedFn : String → Emb)
    (dist : Emb → Emb → Rat)
    (reconciler : List (String × String) → List String → List ReconItem)
    (now : Nat) (userId orgId : String) (st : StoreState) :
    Gnosis.add embedFn dist reconciler now userId orgId [] st =
      (.ok (st, []), []) := by
  rfl

/-! ## C5: index-map safety of the apply loop -/

/-- C5: an UPDATE or DELETE instruction whose id is falsy or absent from
the ephemeral index map is skipped: processing it equals processing the
remaining instructions, so it appends no operation, performs no store
mutation and raises no error. -/
theorem processUpdates_skips_unresolved (embedFn : String → Emb) (now : Nat)
    (factEmbeds : List (String × Emb)) (userId orgId : String)
    (mapping : List (String × MemId)) (st : StoreState)
    (item : ReconItem) (rest : List ReconItem)
    (hev : item.event = MemEvent.UPDATE ∨ item.event = MemEvent.DELETE)
    (hid : strTruthy item.id = false ∨
      mapping.lookup (item.id.getD "") = none) :
    processUpdates embedFn now factEmbeds userId orgId mapping st
        (item :: rest) =
      processUpdates embedFn now factEmbeds userId orgId mapping st rest := by
  obtain ⟨oid, txt, ev, old⟩ := item
  rcases hev with hev | hev <;> cases hev <;>
  · simp only [processUpdates]
    rcases hid with hid | hid
    · simp only at hid
      simp [hid]
    · by_cases ht : strTruthy oid
      · simp only at hid
        simp [ht, hid]
      · simp [ht]

/-- C5 witness: a DELETE instruction aiming at index 5, absent from the
index map, is dropped: on a singleton instruction list the result is the
untouched store and no operations. -/
theorem processUpdates_skips_unresolved_witness :
    processUpdates efn0 9 [] "user1" "org1" [("0", 1)] ⟨[row0], 100⟩
        [⟨some "5", "x", MemEvent.DELETE, none⟩] =
      .ok (⟨[row0], 100⟩, []) := by
  rw [processUpdates_skips_unresolved efn0 9 [] "user1" "org1" [("0", 1)]
    ⟨[row0], 100⟩ ⟨some "5", "x", MemEvent.DELETE, none⟩ []
    (Or.inr rfl) (Or.inr (by decide))]
  rfl

/-! ## C6: query input handling -/

theorem strTruthy_none : strTruthy none = false := rfl

/-- C6 (amended): Memory.query fails exactly when neither input is
supplied (text falsy and embedding absent); supplying both does not
fail: the truthy text wins and the store embeds the cleaned text and
ranks by that embedding, ignoring the supplied embedding. -/
theorem query_input_handling (embedFn : String → Emb)
    (dist : Emb → Emb → Rat) (rows : List MemoryRow) (text : Option String)
    (embedding : Option Emb) (limit : Nat) (f : Filters) :
    ((Memory.query embedFn dist rows text embedding limit f).isOk = true ↔
      (strTruthy text = true ∨ embedding.isSome = true)) ∧
    (strTruthy text = true →
      Memory.query embedFn dist rows text embedding limit f =
        Memory.query embedFn dist rows none
          (some (embedFn (cleanText (text.getD "")))) limit f) := by
  constructor
  · cases embedding <;> by_cases ht : strTruthy text <;>
      simp [Memory.query, ht, Except.isOk, Except.toBool]
  · intro ht
    simp [Memory.query, queryVec, ht, strTruthy_none]

/-- C6 witness: with truthy text and a supplied embedding the query
succeeds and equals the query by the embedded cleaned text. -/
theorem query_input_handling_witness :
    strTruthy (some "bananas") = true ∧
    Memory.query efn0 dist0 [row0] (some "bananas") (some [2]) 5
        ⟨none, none, none⟩ =
      Memory.query efn0 dist0 [row0] none
        (some (efn0 (cleanText "bananas"))) 5 ⟨none, none, none⟩ :=
  ⟨by decide,
   (query_input_handling efn0 dist0 [row0] (some "bananas") (some [2]) 5
     ⟨none, none, none⟩).2 (by decide)⟩

/-- C6 counterexample: a call supplying both text and embedding does not
fail, against the exclusivity stated by the claim. -/
theorem query_both_inputs_ok :
    (Memory.query efn0 dist0 [row0] (some "bananas") (some [2]) 5
      ⟨none, none, none⟩).isOk = true := by
  simp [Memory.query, strTruthy, Except.isOk, Except.toBool]

/-! ## C9: similarity score semantics -/

/-- C9: every successful query returns at most limit matches; each score
is 1 minus the distance between the stored embedding and the query
embedding; and scores are monotonically non-increasing down the list. -/
theorem query_score_semantics (embedFn : String → Emb)
    (dist : Emb → Emb → Rat) (rows : List MemoryRow) (text : Option String)
    (embedding : Option Emb) (limit : Nat) (f : Filters)
    (res : QueryResult)
    (h : Memory.query embedFn dist rows text embedding limit f = .ok res) :
    res.matchList.length ≤ limit ∧
    res.matchList.Pairwise (fun a b => b.score ≤ a.score) ∧
    ∀ m ∈ res.matchList, ∃ r, r ∈ rows ∧ r.id = m.id ∧
      m.score = 1 - dist r.embedding (queryVec embedFn text embedding) := by
  revert h
  unfold Memory.query
  split
  · intro h
    cases h
  · intro h
    injection h with h
    subst h
    refine ⟨?_, ?_, ?_⟩
    · simp only [List.length_map, List.length_take]
      exact Nat.min_le_left _ _
    · have hs : (List.insertionSort
          (distLe dist (queryVec embedFn text embedding))
          (rows.filter (matchesFilters f))).Pairwise
            (distLe dist (queryVec embedFn text embedding)) :=
        List.sorted_insertionSort _ _
      have htake := List.Pairwise.sublist
        (List.take_sublist limit _) hs
      rw [List.pairwise_map]
      exact htake.imp (fun hab => sub_le_sub_left hab 1)
    · intro m hm
      rcases List.mem_map.mp hm with ⟨r, hr, hrm⟩
      refine ⟨r, ?_, ?_, ?_⟩
      · exact (List.mem_filter.mp
          ((List.perm_insertionSort _ _).subset (List.mem_of_mem_take hr))).1
      · rw [← hrm]
      · rw [← hrm]

instance {e a : Type} [DecidableEq e] [DecidableEq a] :
    DecidableEq (Except e a) := fun x y =>
  match x, y with
  | .error u, .error v =>
    if h : u = v then isTrue (congrArg Except.error h)
    else isFalse (fun hc => h (Except.error.inj hc))
  | .error _, .ok _ => isFalse (fun hc => Except.noConfusion hc)
  | .ok _, .error _ => isFalse (fun hc => Except.noConfusion hc)
  | .ok u, .ok v =>
    if h : u = v then isTrue (congrArg Except.ok h)
    else isFalse (fun hc => h (Except.ok.inj hc))

/-- C9 witness: a concrete one-row query with a supplied embedding,
together with the bound from the theorem. -/
theorem query_score_semantics_witness :
    Memory.query efn0 dist0 [row0] none (some [0]) 2 ⟨none, none, none⟩ =
      .ok ⟨[{ id := 1, score := -24, userId := "user1", orgId := "org1",
              agentId := "agent-7", memoryText := "likes apples",
              categories := none }]⟩ ∧
    (⟨[{ id := 1, score := -24, userId := "user1", orgId := "org1",
         agentId := "agent-7", memoryText := "likes apples",
         categories := none }]⟩ : QueryResult).matchList.length ≤ 2 := by
  have heq : Memory.query efn0 dist0 [row0] none (some [0]) 2
      ⟨none, none, none⟩ =
      .ok ⟨[{ id := 1, score := -24, userId := "user1", orgId := "org1",
              agentId := "agent-7", memoryText := "likes apples",
              categories := none }]⟩ := by
    simp [Memory.query, queryVec, strTruthy_none, matchesFilters, row0,
      List.insertionSort, List.orderedInsert]
    norm_num [dist0]
  exact ⟨heq,
    (query_score_semantics efn0 dist0 [row0] none (some [0]) 2
      ⟨none, none, none⟩ _ heq).1⟩

/-! ## C10: the store embeds missing embeddings -/

theorem lookup_pair_map (embedFn : String → Emb) (ts : List String)
    {t : String} (ht : t ∈ ts) :
    (ts.map (fun s => (s, embedFn s))).lookup t = some (embedFn t) := by
  induction ts with
  | nil => cases ht
  | cons a l ih =>
    rw [List.map_cons, List.lookup_cons]
    by_cases h : t = a
    · subst h
      simp
    · have hb : (t == a) = false := beq_eq_false_iff_ne.mpr h
      simp only [hb]
      exact ih (List.mem_of_ne_of_mem h ht)

theorem embeddingsMap_lookup (embedFn : String → Emb)
    (items : List AddItem) {it : AddItem} (hmem : it ∈ items)
    (hnone : it.embedding = none) :
    (embeddingsMapOf embedFn items).lookup it.memoryText =
      some (embedFn it.memoryText) := by
  unfold embeddingsMapOf
  have hrw : (items.filter (fun x => x.embedding.isNone)).map
      (fun x => (x.memoryText, embedFn x.memoryText)) =
      ((items.filter (fun x => x.embedding.isNone)).map
        AddItem.memoryText).map (fun s => (s, embedFn s)) := by
    rw [List.map_map]
    rfl
  rw [hrw]
  apply lookup_pair_map
  exact List.mem_map.mpr
    ⟨it, List.mem_filter.mpr ⟨hmem, by rw [hnone]; rfl⟩, rfl⟩

theorem buildRecords_total (embedsMap : List (String × Emb)) :
    ∀ items : List AddItem, (∀ it ∈ items, ¬ it.orgId = "") →
    ∃ recs, buildRecords embedsMap items = .ok recs ∧
      recs.length = items.length ∧
      ∀ i (hi : i < items.length) (hr : i < recs.length),
        (recs.get ⟨i, hr⟩).embedding =
          match (items.get ⟨i, hi⟩).embedding with
          | some e => e
          | none =>
            (embedsMap.lookup ((items.get ⟨i, hi⟩).memoryText)).getD [] := by
  intro items
  induction items with
  | nil =>
    intro _
    exact ⟨[], rfl, rfl, fun i hi => absurd hi (Nat.not_lt_zero i)⟩
  | cons a l ih =>
    intro hall
    have hb : (a.orgId == "") = false :=
      beq_eq_false_iff_ne.mpr (hall a (List.mem_cons_self a l))
    rcases ih (fun it hit => hall it (List.mem_cons_of_mem a hit)) with
      ⟨recs, hrecs, hlen, hget⟩
    refine ⟨{ id := a.id,
              embedding :=
                match a.embedding with
                | some e => e
                | none => (embedsMap.lookup a.memoryText).getD [],
              userId := a.userId, orgId := a.orgId,
              memoryText := a.memoryText,
              agentId := a.agentId.getD "" } :: recs, ?_, ?_, ?_⟩
    · unfold buildRecords mkRecord
      rw [hrecs]
      simp [hb]
    · simp [hlen]
    · intro i hi hr
      cases i with
      | zero => rfl
      | succ n =>
        exact hget n (Nat.lt_of_succ_lt_succ hi) (Nat.lt_of_succ_lt_succ hr)

/-- C10: the store embeds on demand: Memory.add succeeds whenever every
item carries a truthy orgId, and the record built for the i-th item
carries the supplied embedding when present and the store-computed
embedding of the item text when absent, so no record is ever inserted
with a missing embedding; in particular an ADD item whose text missed
the engine fact map (supplied embedding absent) is embedded from its own
text. -/
theorem memory_add_embeds_on_demand (embedFn : String → Emb) (now : Nat)
    (st : StoreState) (items : List AddItem)
    (horg : ∀ it ∈ items, ¬ it.orgId = "") :
    (Memory.add embedFn now st items).isOk = true ∧
    ∃ recs, buildRecords (embeddingsMapOf embedFn items) items = .ok recs ∧
      recs.length = items.length ∧
      ∀ i (hi : i < items.length) (hr : i < recs.length),
        (recs.get ⟨i, hr⟩).embedding =
          ((items.get ⟨i, hi⟩).embedding).getD
            (embedFn ((items.get ⟨i, hi⟩).memoryText)) := by
  rcases buildRecords_total (embeddingsMapOf embedFn items) items horg with
    ⟨recs, hrecs, hlen, hget⟩
  constructor
  · simp only [Memory.add]
    rw [hrecs]
    rfl
  · refine ⟨recs, hrecs, hlen, ?_⟩
    intro i hi hr
    rw [hget i hi hr]
    cases hcase : (items.get ⟨i, hi⟩).embedding with
    | some e => rfl
    | none =>
      rw [embeddingsMap_lookup embedFn items (List.get_mem items i hi) hcase]
      rfl

/-- C10 witness: an item without an embedding and with a truthy orgId is
accepted by the store. -/
theorem memory_add_embeds_on_demand_witness :
    (Memory.add efn0 4 ⟨[], 0⟩
      [{ id := none, embedding := none, memoryText := "hi",
         userId := "user1", orgId := "org1", agentId := none }]).isOk =
      true :=
  (memory_add_embeds_on_demand efn0 4 ⟨[], 0⟩
    [{ id := none, embedding := none, memoryText := "hi",
       userId := "user1", orgId := "org1", agentId := none }]
    (by decide)).1

/-! ## Sorted pagination machinery -/

/-- The full matching result set in createdAt DESC, id DESC order: what
forward pagination must enumerate. -/
def sortedMatching (rows : List MemoryRow) (f : Filters) : List MemoryRow :=
  (rows.filter (matchesFilters f)).insertionSort descLe

theorem keys_nodup_of_ids {l : List MemoryRow}
    (h : (l.map MemoryRow.id).Nodup) : (l.map rowKey).Nodup := by
  unfold List.Nodup at *
  rw [List.pairwise_map] at *
  exact h.imp (fun hne hkeq => hne (congrArg Prod.snd hkeq))

theorem strict_of_sorted_nodup {l : List MemoryRow}
    (hs : l.Pairwise descLe) (hn : (l.map rowKey).Nodup) :
    l.Pairwise rGT := by
  have hne : l.Pairwise (fun a b => rowKey a ≠ rowKey b) := by
    unfold List.Nodup at hn
    rw [List.pairwise_map] at hn
    exact hn
  exact (hs.and hne).imp (fun h => by
    rcases h with ⟨hle | heq, hne2⟩
    · exact hle
    · exact absurd heq hne2)

theorem strict_of_sorted_nodup_asc {l : List MemoryRow}
    (hs : l.Pairwise ascLe) (hn : (l.map rowKey).Nodup) :
    l.Pairwise rLT := by
  have hne : l.Pairwise (fun a b => rowKey a ≠ rowKey b) := by
    unfold List.Nodup at hn
    rw [List.pairwise_map] at hn
    exact hn
  exact (hs.and hne).imp (fun h => by
    rcases h with ⟨hle | heq, hne2⟩
    · exact hle
    · exact absurd heq hne2)

theorem sorted_desc_unique {l1 l2 : List MemoryRow} (hp : l1.Perm l2)
    (h1 : l1.Pairwise rGT) (h2 : l2.Pairwise rGT) : l1 = l2 :=
  List.eq_of_perm_of_sorted hp h1 h2

theorem sorted_asc_unique {l1 l2 : List MemoryRow} (hp : l1.Perm l2)
    (h1 : l1.Pairwise rLT) (h2 : l2.Pairwise rLT) : l1 = l2 :=
  List.eq_of_perm_of_sorted hp h1 h2

theorem sortedMatching_perm (rows : List MemoryRow) (f : Filters) :
    (sortedMatching rows f).Perm (rows.filter (matchesFilters f)) :=
  List.perm_insertionSort _ _

theorem filter_ids_nodup {rows : List MemoryRow} (hwf : WF rows)
    (p : MemoryRow → Bool) : ((rows.filter p).map MemoryRow.id).Nodup :=
  List.Nodup.sublist (List.Sublist.map _ (List.filter_sublist rows)) hwf

theorem sortedMatching_ids_nodup {rows : List MemoryRow} (hwf : WF rows)
    (f : Filters) : ((sortedMatching rows f).map MemoryRow.id).Nodup :=
  ((sortedMatching_perm rows f).map MemoryRow.id).symm.nodup
    (filter_ids_nodup hwf (matchesFilters f))

theorem sortedMatching_strict {rows : List MemoryRow} (hwf : WF rows)
    (f : Filters) : (sortedMatching rows f).Pairwise rGT :=
  strict_of_sorted_nodup (List.sorted_insertionSort _ _)
    (keys_nodup_of_ids (sortedMatching_ids_nodup hwf f))

theorem sortedMatching_mem_rows {rows : List MemoryRow} {f : Filters}
    {r : MemoryRow} (hr : r ∈ sortedMatching rows f) : r ∈ rows :=
  (List.mem_filter.mp ((sortedMatching_perm rows f).subset hr)).1

/-- On a strictly descending list, the rows strictly older than the row
at position k are exactly the suffix after position k. -/
theorem filter_lt_of_strict :
    ∀ (S : List MemoryRow), S.Pairwise rGT →
    ∀ (k : Nat) (hk : k < S.length),
    S.filter (fun r => decide (keyLt (rowKey r) (rowKey (S.get ⟨k, hk⟩)))) =
      S.drop (k + 1) := by
  intro S
  induction S with
  | nil =>
    intro _ k hk
    cases hk
  | cons a l ih =>
    intro hp k hk
    cases k with
    | zero =>
      rw [List.filter_cons]
      have ha : decide (keyLt (rowKey a) (rowKey ((a :: l).get ⟨0, hk⟩))) =
          false := by
        apply decide_eq_false
        exact keyLt_irrefl (rowKey a)
      rw [ha]
      simp only [Bool.false_eq_true, if_false]
      have hall : ∀ x ∈ l,
          (decide (keyLt (rowKey x) (rowKey ((a :: l).get ⟨0, hk⟩)))) =
            true := by
        intro x hx
        exact decide_eq_true ((List.pairwise_cons.mp hp).1 x hx)
      rw [List.filter_eq_self.mpr hall]
      rfl
    | succ n =>
      have hn : n < l.length := Nat.lt_of_succ_lt_succ hk
      have hget : (a :: l).get ⟨n + 1, hk⟩ = l.get ⟨n, hn⟩ := rfl
      rw [List.filter_cons]
      have ha : decide
          (keyLt (rowKey a) (rowKey ((a :: l).get ⟨n + 1, hk⟩))) = false := by
        apply decide_eq_false
        intro hlt
        rw [hget] at hlt
        exact keyLt_asymm hlt
          ((List.pairwise_cons.mp hp).1 _ (List.get_mem l n hn))
      rw [ha]
      simp only [Bool.false_eq_true, if_false]
      have hrw : (fun r => decide
          (keyLt (rowKey r) (rowKey ((a :: l).get ⟨n + 1, hk⟩)))) =
          (fun r => decide (keyLt (rowKey r) (rowKey (l.get ⟨n, hn⟩)))) := by
        rw [hget]
      rw [hrw, ih (List.pairwise_cons.mp hp).2 n hn]
      rfl

/-- Symmetric statement for the rows strictly newer than the row at
position k of a strictly descending list: the prefix before k. -/
theorem filter_gt_of_strict :
    ∀ (S : List MemoryRow), S.Pairwise rGT →
    ∀ (k : Nat) (hk : k < S.length),
    S.filter (fun r => decide (keyLt (rowKey (S.get ⟨k, hk⟩)) (rowKey r))) =
      S.take k := by
  intro S
  induction S with
  | nil =>
    intro _ k hk
    cases hk
  | cons a l ih =>
    intro hp k hk
    cases k with
    | zero =>
      rw [List.filter_cons]
      have ha : decide (keyLt (rowKey ((a :: l).get ⟨0, hk⟩)) (rowKey a)) =
          false := by
        apply decide_eq_false
        exact keyLt_irrefl (rowKey a)
      rw [ha]
      simp only [Bool.false_eq_true, if_false]
      have hnil : l.filter (fun r => decide
          (keyLt (rowKey ((a :: l).get ⟨0, hk⟩)) (rowKey r))) = [] := by
        rw [List.filter_eq_nil_iff]
        intro x hx hd
        exact keyLt_asymm (of_decide_eq_true hd)
          ((List.pairwise_cons.mp hp).1 x hx)
      rw [hnil]
      rfl
    | succ n =>
      have hn : n < l.length := Nat.lt_of_succ_lt_succ hk
      have hget : (a :: l).get ⟨n + 1, hk⟩ = l.get ⟨n, hn⟩ := rfl
      rw [List.filter_cons]
      have ha : decide
          (keyLt (rowKey ((a :: l).get ⟨n + 1, hk⟩)) (rowKey a)) = true := by
        apply decide_eq_true
        rw [hget]
        exact (List.pairwise_cons.mp hp).1 _ (List.get_mem l n hn)
      rw [ha]
      simp only [if_true]
      have hrw : (fun r => decide
          (keyLt (rowKey ((a :: l).get ⟨n + 1, hk⟩)) (rowKey r))) =
          (fun r => decide (keyLt (rowKey (l.get ⟨n, hn⟩)) (rowKey r))) := by
        rw [hget]
      rw [hrw, ih (List.pairwise_cons.mp hp).2 n hn]
      rfl

/-- The descending sort of the conjunctively filtered table equals any
strictly descending list holding the cursor-filtered slice of the
matching result set. -/
theorem insertionSort_desc_filter_eq (rows : List MemoryRow) (f : Filters)
    (hwf : WF rows) (c : MemoryRow → Bool) {L : List MemoryRow}
    (hL : (sortedMatching rows f).filter c = L) (hLp : L.Pairwise rGT) :
    (rows.filter (fun r => matchesFilters f r && c r)).insertionSort
      descLe = L := by
  apply sorted_desc_unique ?_ ?_ hLp
  · have h2 : rows.filter (fun r => matchesFilters f r && c r) =
        (rows.filter (matchesFilters f)).filter c := by
      rw [List.filter_filter]
      exact List.filter_congr (fun a _ => Bool.and_comm _ _)
    rw [← hL, h2]
    exact (List.perm_insertionSort _ _).trans
      (List.Perm.filter c (sortedMatching_perm rows f).symm)
  · apply strict_of_sorted_nodup (List.sorted_insertionSort _ _)
    apply keys_nodup_of_ids
    exact ((List.perm_insertionSort descLe _).map MemoryRow.id).symm.nodup
      (filter_ids_nodup hwf _)

/-- The ascending fetch of the backward branch is the reverse of the
descending sort of the same selection. -/
theorem insertionSort_asc_eq_reverse_desc (rows : List MemoryRow)
    (hwf : WF rows) (p : MemoryRow → Bool) :
    (rows.filter p).insertionSort ascLe =
      ((rows.filter p).insertionSort descLe).reverse := by
  apply sorted_asc_unique
  · exact (List.perm_insertionSort _ _).trans
      ((List.perm_insertionSort _ _).symm.trans (List.reverse_perm _).symm)
  · apply strict_of_sorted_nodup_asc (List.sorted_insertionSort _ _)
    apply keys_nodup_of_ids
    exact ((List.perm_insertionSort ascLe _).map MemoryRow.id).symm.nodup
      (filter_ids_nodup hwf _)
  · rw [List.pairwise_reverse]
    apply strict_of_sorted_nodup (List.sorted_insertionSort _ _)
    apply keys_nodup_of_ids
    exact ((List.perm_insertionSort descLe _).map MemoryRow.id).symm.nodup
      (filter_ids_nodup hwf _)

/-- A cursor value and the count of rows already delivered: none at the
start, or the id of the row at position m - 1 of the result set. -/
def cursorAt (S : List MemoryRow) (m : Nat) (cursor : Option MemId) : Prop :=
  (m = 0 ∧ cursor = none) ∨
  (∃ j : Fin S.length, m = j.1 + 1 ∧ cursor = some (S.get j).id)

theorem clampLimit_pos (limit : Nat) : 1 ≤ clampLimit limit := by
  unfold clampLimit
  split
  · exact Nat.le_refl 1
  · split <;> omega

/-- The forward page formula: a getByFilters call whose cursor sits at
position m of the matching result set returns the next clampLimit rows
of that set, and has_more holds exactly when more than clampLimit rows
remain after the cursor position. -/
theorem getByFilters_forward_page (rows : List MemoryRow) (f : Filters)
    (limit : Nat) (it : Bool) (hwf : WF rows) (m : Nat)
    (cursor : Option MemId)
    (hc : cursorAt (sortedMatching rows f) m cursor) :
    Memory.getByFilters rows f limit it cursor none =
      .ok ⟨((sortedMatching rows f).drop m).take (clampLimit limit),
           decide (clampLimit limit <
             ((sortedMatching rows f).drop m).length)⟩ := by
  rcases hc with ⟨hm, hcur⟩ | ⟨j, hm, hcur⟩
  · subst hm
    subst hcur
    simp only [Memory.getByFilters, Option.isSome_none, Bool.and_false,
      Bool.false_eq_true, if_false, List.drop_zero]
    have hfold : (rows.filter (fun r => matchesFilters f r)).insertionSort
        descLe = sortedMatching rows f := rfl
    rw [hfold, List.take_take]
    have hmin : min (clampLimit limit) (clampLimit limit + 1) =
        clampLimit limit := by omega
    rw [hmin]
    have hlen : (decide (clampLimit limit <
        (((sortedMatching rows f).take (clampLimit limit + 1))).length)) =
        (decide (clampLimit limit < (sortedMatching rows f).length)) := by
      rw [decide_eq_decide]
      rw [List.length_take]
      omega
    rw [hlen]
  · subst hm
    subst hcur
    have hmem : (sortedMatching rows f).get j ∈ rows :=
      sortedMatching_mem_rows (List.get_mem _ _ _)
    have hfind := findRow_of_mem hwf hmem
    have hkey := insertionSort_desc_filter_eq rows f hwf
      (fun r => decide (keyLt (rowKey r)
        (rowKey ((sortedMatching rows f).get j))))
      (filter_lt_of_strict (sortedMatching rows f)
        (sortedMatching_strict hwf f) j.1 j.2)
      (List.Pairwise.sublist (List.drop_sublist _ _)
        (sortedMatching_strict hwf f))
    simp only [Memory.getByFilters, Option.isSome_some, Option.isSome_none,
      Bool.and_false, Bool.false_eq_true, if_false, if_true, hfind, hkey]
    rw [List.take_take]
    have hmin : min (clampLimit limit) (clampLimit limit + 1) =
        clampLimit limit := by omega
    rw [hmin]
    have hlen : (decide (clampLimit limit <
        ((((sortedMatching rows f).drop (j.1 + 1)).take
          (clampLimit limit + 1))).length)) =
        (decide (clampLimit limit <
          ((sortedMatching rows f).drop (j.1 + 1)).length)) := by
      rw [decide_eq_decide]
      rw [List.length_take]
      omega
    rw [hlen]

/-- The client-side pagination protocol of the claim: call getByFilters,
and while has_more is reported, call again with starting_after set to
the id of the last returned row. Fuel bounds the number of pages. -/
def forwardPages (rows : List MemoryRow) (f : Filters) (limit : Nat) :
    Nat → Option MemId → List Page
  | 0, _ => []
  | Nat.succ fuel, cursor =>
    match Memory.getByFilters rows f limit false cursor none with
    | .error _ => []
    | .ok page =>
      if page.has_more then
        match page.data.getLast? with
        | some lastRow =>
          page :: forwardPages rows f limit fuel (some lastRow.id)
        | none => [page]
      else [page]

theorem getLast?_take_drop (S : List MemoryRow) (m lim : Nat)
    (hlim : 1 ≤ lim) (hlen : lim < (S.drop m).length) :
    ∃ h : m + lim - 1 < S.length,
      ((S.drop m).take lim).getLast? = some (S.get ⟨m + lim - 1, h⟩) := by
  have hmlen : m + lim ≤ S.length := by
    rw [List.length_drop] at hlen
    omega
  have hbound : m + lim - 1 < S.length := by omega
  refine ⟨hbound, ?_⟩
  have hlt : ((S.drop m).take lim).length = lim := by
    rw [List.length_take, List.length_drop]
    omega
  rw [List.getLast?_eq_getElem?]
  rw [hlt]
  rw [List.getElem?_eq_getElem (by omega : lim - 1 < ((S.drop m).take lim).length)]
  congr 1
  rw [List.getElem_take, List.getElem_drop]
  congr 1
  omega

/-- The chain invariant for forward pagination: starting at position m
with enough fuel, the pages deliver exactly the suffix from m, every
non-final page says has_more and the final page says has_more = false. -/
theorem forwardPages_spec (rows : List MemoryRow) (f : Filters)
    (limit : Nat) (hwf : WF rows) :
    ∀ fuel m cursor, cursorAt (sortedMatching rows f) m cursor →
    (sortedMatching rows f).length - m < fuel →
    (((forwardPages rows f limit fuel cursor).map Page.data).flatten =
      (sortedMatching rows f).drop m) ∧
    forwardPages rows f limit fuel cursor ≠ [] ∧
    (∀ p ∈ (forwardPages rows f limit fuel cursor).dropLast,
      p.has_more = true) ∧
    (∀ p ∈ (forwardPages rows f limit fuel cursor).getLast?,
      p.has_more = false) := by
  intro fuel
  induction fuel with
  | zero =>
    intro m cursor _ hfuel
    exact absurd hfuel (Nat.not_lt_zero _)
  | succ fuel ih =>
    intro m cursor hc hfuel
    have hpage := getByFilters_forward_page rows f limit false hwf m cursor hc
    by_cases hmore : clampLimit limit < ((sortedMatching rows f).drop m).length
    · -- a full page followed by more
      have hlim := clampLimit_pos limit
      rcases getLast?_take_drop (sortedMatching rows f) m (clampLimit limit)
        hlim hmore with ⟨hb, hlast⟩
      have hnext : cursorAt (sortedMatching rows f) (m + clampLimit limit)
          (some ((sortedMatching rows f).get ⟨m + clampLimit limit - 1, hb⟩).id) :=
        Or.inr ⟨⟨m + clampLimit limit - 1, hb⟩, by
          show m + clampLimit limit = m + clampLimit limit - 1 + 1
          omega, rfl⟩
      have hfuel2 : (sortedMatching rows f).length - (m + clampLimit limit) <
          fuel := by
        rw [List.length_drop] at hmore
        omega
      have hrec := ih (m + clampLimit limit) _ hnext hfuel2
      simp only [forwardPages, hpage]
      rw [if_pos (by exact decide_eq_true hmore)]
      simp only [hlast]
      constructor
      · simp only [List.map_cons, List.flatten_cons]
        rw [hrec.1]
        have : (sortedMatching rows f).drop (m + clampLimit limit) =
            ((sortedMatching rows f).drop m).drop (clampLimit limit) := by
          rw [List.drop_drop]
        rw [this, List.take_append_drop]
      · refine ⟨List.cons_ne_nil _ _, ?_, ?_⟩
        · intro p hp
          rw [List.dropLast_cons_of_ne_nil hrec.2.1] at hp
          rcases List.mem_cons.mp hp with hp | hp
          · subst hp
            exact decide_eq_true hmore
          · exact hrec.2.2.1 p hp
        · intro p hp
          rw [List.getLast?_cons] at hp
          rcases hlast2 : (forwardPages rows f limit fuel
              (some ((sortedMatching rows f).get
                ⟨m + clampLimit limit - 1, hb⟩).id)).getLast? with _ | q
          · exact absurd (List.getLast?_eq_none_iff.mp hlast2) hrec.2.1
          · rw [hlast2] at hp
            simp only [Option.getD_some, Option.mem_def,
              Option.some.injEq] at hp
            subst hp
            exact hrec.2.2.2 q (by rw [hlast2]; rfl)
    · -- the final page
      simp only [forwardPages, hpage]
      rw [if_neg (by simpa using hmore)]
      have hall : ((sortedMatching rows f).drop m).take (clampLimit limit) =
          (sortedMatching rows f).drop m :=
        List.take_of_length_le (by omega)
      refine ⟨?_, List.cons_ne_nil _ _, ?_, ?_⟩
      · simp only [List.map_cons, List.map_nil, List.flatten_cons,
          List.flatten_nil, List.append_nil]
        exact hall
      · intro p hp
        simp at hp
      · intro p hp
        simp only [List.getLast?_singleton, Option.mem_def,
          Option.some.injEq] at hp
        subst hp
        simp only [Page.has_more]
        exact decide_eq_false hmore

/-! ## C1: forward pagination is complete and exact -/

/-- C1: iterating forward pagination from no cursor, feeding back the
last id of each page while has_more holds, concatenates to exactly the
matching result set (a permutation of the filtered table, so every
matching memory exactly once) in strictly descending
(createdAt, id) order; every non-final page reports has_more = true, the
final page reports has_more = false, and each single page equals the
next clampLimit rows after the cursor position with has_more true
exactly when more than clampLimit rows remain beyond it. -/
theorem forward_pagination_exhaustive (rows : List MemoryRow) (f : Filters)
    (limit : Nat) (hwf : WF rows) :
    ((forwardPages rows f limit ((sortedMatching rows f).length + 1)
        none).map Page.data).flatten = sortedMatching rows f ∧
    (sortedMatching rows f).Perm (rows.filter (matchesFilters f)) ∧
    (sortedMatching rows f).Pairwise rGT ∧
    forwardPages rows f limit ((sortedMatching rows f).length + 1) none ≠
      [] ∧
    (∀ p ∈ (forwardPages rows f limit ((sortedMatching rows f).length + 1)
        none).dropLast, p.has_more = true) ∧
    (∀ p ∈ (forwardPages rows f limit ((sortedMatching rows f).length + 1)
        none).getLast?, p.has_more = false) ∧
    (∀ m cursor, cursorAt (sortedMatching rows f) m cursor →
      Memory.getByFilters rows f limit false cursor none =
        .ok ⟨((sortedMatching rows f).drop m).take (clampLimit limit),
             decide (clampLimit limit <
               ((sortedMatching rows f).drop m).length)⟩) := by
  have h := forwardPages_spec rows f limit hwf
    ((sortedMatching rows f).length + 1) 0 none (Or.inl ⟨rfl, rfl⟩)
    (by omega)
  rw [List.drop_zero] at h
  exact ⟨h.1, sortedMatching_perm rows f, sortedMatching_strict hwf f,
    h.2.1, h.2.2.1, h.2.2.2,
    fun m cursor hc =>
      getByFilters_forward_page rows f limit false hwf m cursor hc⟩

def rowA : MemoryRow :=
  { id := 1, embedding := [], userId := "u", orgId := "o",
    memoryText := "a", agentId := "", categories := none,
    createdAt := 5, updatedAt := 5 }

def rowB : MemoryRow :=
  { id := 2, embedding := [], userId := "u", orgId := "o",
    memoryText := "b", agentId := "", categories := none,
    createdAt := 6, updatedAt := 6 }

def rowC : MemoryRow :=
  { id := 3, embedding := [], userId := "u", orgId := "o",
    memoryText := "c", agentId := "", categories := none,
    createdAt := 7, updatedAt := 7 }

def rowsW : List MemoryRow := [rowA, rowB, rowC]

def fW : Filters := ⟨none, none, none⟩

/-- C1 witness: the full pagination property on a concrete three-row
table with page size 1. -/
theorem forward_pagination_exhaustive_witness :
    ((forwardPages rowsW fW 1 ((sortedMatching rowsW fW).length + 1)
        none).map Page.data).flatten = sortedMatching rowsW fW ∧
    (sortedMatching rowsW fW).Perm (rowsW.filter (matchesFilters fW)) ∧
    (sortedMatching rowsW fW).Pairwise rGT ∧
    forwardPages rowsW fW 1 ((sortedMatching rowsW fW).length + 1) none ≠
      [] ∧
    (∀ p ∈ (forwardPages rowsW fW 1 ((sortedMatching rowsW fW).length + 1)
        none).dropLast, p.has_more = true) ∧
    (∀ p ∈ (forwardPages rowsW fW 1 ((sortedMatching rowsW fW).length + 1)
        none).getLast?, p.has_more = false) ∧
    (∀ m cursor, cursorAt (sortedMatching rowsW fW) m cursor →
      Memory.getByFilters rowsW fW 1 false cursor none =
        .ok ⟨((sortedMatching rowsW fW).drop m).take (clampLimit 1),
             decide (clampLimit 1 <
               ((sortedMatching rowsW fW).drop m).length)⟩) :=
  forward_pagination_exhaustive rowsW fW 1 (by decide)

/-! ## C3: backward pagination -/

/-- The rows strictly newer than the reference under the composite
order, restricted by the filters, in createdAt DESC, id DESC order. -/
def newerDesc (rows : List MemoryRow) (f : Filters) (Y : MemoryRow) :
    List MemoryRow :=
  (rows.filter (fun r =>
    matchesFilters f r && decide (keyLt (rowKey Y) (rowKey r)))).insertionSort
    descLe

theorem newerDesc_strict {rows : List MemoryRow} (hwf : WF rows)
    (f : Filters) (Y : MemoryRow) : (newerDesc rows f Y).Pairwise rGT :=
  strict_of_sorted_nodup (List.sorted_insertionSort _ _)
    (keys_nodup_of_ids
      (((List.perm_insertionSort descLe _).map MemoryRow.id).symm.nodup
        (filter_ids_nodup hwf _)))

/-- C3: with endingBefore resolving to a stored row Y, getByFilters
selects the rows strictly newer than Y, fetches clampLimit + 1 of them
in ascending order, keeps the first clampLimit and reverses them, which
equals the oldest clampLimit rows of the newer set presented in
createdAt DESC, id DESC order; and has_more is true unconditionally on
this path, whether or not further newer rows exist. -/
theorem backward_pagination (rows : List MemoryRow) (f : Filters)
    (limit : Nat) (it : Bool) (y : MemId) (Y : MemoryRow) (hwf : WF rows)
    (hfind : findRow rows y = some Y) :
    Memory.getByFilters rows f limit it none (some y) =
      .ok ⟨(newerDesc rows f Y).drop
             ((newerDesc rows f Y).length - clampLimit limit), true⟩ ∧
    ((newerDesc rows f Y).drop
      ((newerDesc rows f Y).length - clampLimit limit)).Pairwise rGT := by
  constructor
  · simp only [Memory.getByFilters, Option.isSome_none, Option.isSome_some,
      Bool.false_and, Bool.false_eq_true, if_false, if_true, hfind]
    rw [insertionSort_asc_eq_reverse_desc rows hwf]
    rw [List.take_take]
    have hmin : min (clampLimit limit) (clampLimit limit + 1) =
        clampLimit limit := by omega
    rw [hmin]
    rw [List.take_reverse, List.reverse_reverse]
    rfl
  · exact List.Pairwise.sublist (List.drop_sublist _ _)
      (newerDesc_strict hwf f Y)

/-- C3 witness: with the newest row as the cursor the newer set is
empty, the page is empty, and has_more is still reported true. -/
theorem backward_pagination_witness :
    Memory.getByFilters rowsW fW 10 false none (some 3) =
      .ok ⟨[], true⟩ := by
  have h := (backward_pagination rowsW fW 10 false 3 rowC (by decide)
    (by decide)).1
  rw [h]
  decide
